import Mathlib

/-
Shallow embedding of `src/asr/models/las/network.py` (Listen-Attend-Spell
encoder/decoder).  Pure shape/length arithmetic, the decoder control loop,
the teacher-forcing scheduler, the training-batch filter and the numeric
normalisation layers are translated into Lean definitions; theorems below
settle the frozen claims against them.
-/

namespace LasNetwork

/-! ### Listener (encoder) length arithmetic

`Listener.__init__` documents the convolution formula `(W - F + 2P)/S + 1`.
Each of the three stages is `Conv2d(kernel=(11,3), stride=(1,1), pad=(5,1))`
followed by `AvgPool2d(kernel=(3,1), stride=(2,1), pad=(1,0))`, applied to a
`(batch, channel, frequency, time)` tensor: the FIRST kernel component acts on
the frequency axis, the SECOND on the time axis.  `Listener.forward` keeps
`h.size(3)` (time) as the sequence axis and packs it with the caller's
unchanged `seq_lens`. -/

/-- Single-axis convolution/pooling output length, the formula
`out = (in - kernel + 2*pad) / stride + 1` documented in `Listener.__init__`.
(Stated as `(in + 2*pad - kernel) / stride + 1` so that `Nat` subtraction
never truncates for the argument ranges used; callers establish
`kernel ≤ in + 2*pad`.) -/
def convOut (l kernel pad stride : Nat) : Nat :=
  (l + 2 * pad - kernel) / stride + 1

/-- One encoder stage along the time axis: conv with kernel 3 / pad 1 /
stride 1, then pooling with kernel 1 / pad 0 / stride 1 (the second components
of the `(11,3)`, `(5,1)`, `(1,1)` / `(3,1)`, `(1,0)`, `(2,1)` tuples). -/
def stageTime (l : Nat) : Nat := convOut (convOut l 3 1 1) 1 0 1

/-- One encoder stage along the frequency axis: conv with kernel 11 / pad 5 /
stride 1, then pooling with kernel 3 / pad 1 / stride 2 (the first components
of the kernel/stride/pad tuples). -/
def stageFreq (w : Nat) : Nat := convOut (convOut w 11 5 1) 3 1 2

/-- Time extent after the three `feature` stages of `Listener`. -/
def listenerTime (l : Nat) : Nat := stageTime (stageTime (stageTime l))

/-- Frequency extent after the three `feature` stages of `Listener`
(the `W0 = 129, W1 = 65, W2 = 33, W3 = 17` chain in the source). -/
def listenerFreq (w : Nat) : Nat := stageFreq (stageFreq (stageFreq w))

/-- Per-sample encoder output time lengths for a batch of input lengths. -/
def listenerTimeBatch (ls : List Nat) : List Nat := ls.map listenerTime

/-- The halving formula the claim asserts for the TIME axis:
`floor((L - 3 + 2)/2) + 1` (written with the claim's literal operand order). -/
def specClaimHalve (l : Nat) : Nat := (l - 3 + 2) / 2 + 1

/-! ### ListenAttendSpell._train_forward batch filter

`bi = x_seq_lens.gt(y_seq_lens) * y_seq_lens.lt(self.spell.max_seq_lens)`;
a warning is logged `if ~bi.any()`. -/

/-- Whether `_train_forward` retains a sample: feature length strictly greater
than label length AND label length strictly below `max_seq_lens`. -/
def retainSample (maxSeqLens xLen yLen : Nat) : Bool :=
  decide (yLen < xLen) && decide (yLen < maxSeqLens)

/-- The retained sub-batch (samples as `(x_seq_len, y_seq_len)` pairs). -/
def trainFilter (maxSeqLens : Nat) (samples : List (Nat × Nat)) : List (Nat × Nat) :=
  samples.filter (fun s => retainSample maxSeqLens s.1 s.2)

/-- Whether `_train_forward` logs its warning (`~bi.any()`: no sample kept). -/
def trainWarn (maxSeqLens : Nat) (samples : List (Nat × Nat)) : Bool :=
  !(samples.any (fun s => retainSample maxSeqLens s.1 s.2))

/-! ### ListenAttendSpell._eval_forward output lengths

The source runs `y_hats_seq_lens[y_hats_seq_lens.ne(max_seq_lens)].sub_(num_eos)`.
In PyTorch, indexing a tensor with a boolean mask (advanced indexing) returns a
NEW tensor holding a copy of the selected entries; the in-place `sub_` then
mutates only that copy, so the vector actually returned is unmodified.  The
embedding reproduces this: the selection and subtraction are computed and
discarded, and the original vector is returned. -/

/-- Length post-processing performed by `_eval_forward` on the decoder's
length vector, with PyTorch advanced-indexing (copy) semantics. -/
def evalForwardLens (maxLen numEos : Nat) (B : Nat) (lens : Fin B → Nat) : Fin B → Nat :=
  let selectedCopy := (List.finRange B).filterMap
    (fun b => if lens b ≠ maxLen then some (lens b) else none)
  let _mutatedCopy := selectedCopy.map (fun v => v - numEos)
  lens

/-- Modelled from the spec's words for C1 (the intended behaviour): subtract
`numEos` from every entry that differs from `maxLen`. -/
def evalForwardLensClaim (maxLen numEos : Nat) (B : Nat) (lens : Fin B → Nat) :
    Fin B → Nat :=
  fun b => if lens b ≠ maxLen then lens b - numEos else lens b

/-! ### Speller next-input selection (scheduled sampling)

`Speller.forward`, per decode step:
```
if y is None or not self._is_sample_step():  x = cat([y_hat, c])
elif t < y.size(1):                          x = cat([y.narrow(1, t, 1), c])
else:                                        x = cat([eos, c])
```
`_is_sample_step()` is `np.random.random_sample() < self.tfr`, an event of
probability `tfr`; it is modelled as the boolean `sampleStep`. -/

/-- What is concatenated with the context as the next decoder input. -/
inductive NextIn where
  | fromPrev : NextIn
  | fromTarget : Nat → NextIn
  | fromEos : NextIn
  deriving DecidableEq

/-- Next-input choice of `Speller.forward`; `hasTargets` is `y is not None`,
`sampleStep` the result of `_is_sample_step()` (true with probability `tfr`),
`ySize` is `y.size(1)`. -/
def chooseNextInput (hasTargets sampleStep : Bool) (t ySize : Nat) : NextIn :=
  if hasTargets = false ∨ sampleStep = false then NextIn.fromPrev
  else if t < ySize then NextIn.fromTarget t
  else NextIn.fromEos

/-! ### TFRScheduler -/

/-- State of `TFRScheduler` (the `model` back-reference is elided; the ratio it
would write is `get_tfr` of the post-step state). -/
structure TFRSchedulerState where
  upper : ℚ
  lower : ℚ
  warm_up : ℤ
  epochs : ℤ
  restart : Bool
  last_epoch : ℤ

/-- `self.end_epochs = epochs + warm_up`. -/
def end_epochs (s : TFRSchedulerState) : ℤ := s.epochs + s.warm_up

/-- `self.slope = (lower - upper) / epochs`. -/
def slope (s : TFRSchedulerState) : ℚ := (s.lower - s.upper) / (s.epochs : ℚ)

/-- `TFRScheduler.get_tfr`. -/
def get_tfr (s : TFRSchedulerState) : ℚ :=
  if s.last_epoch < s.warm_up then s.upper
  else if s.last_epoch < end_epochs s then
    s.upper + slope s * ((s.last_epoch - s.warm_up : ℤ) : ℚ)
  else s.lower

/-- `TFRScheduler.step()` with `epoch=None`: optional restart reset of
`last_epoch` to `-1`, then `last_epoch := last_epoch + 1`. -/
def schedStep (s : TFRSchedulerState) : TFRSchedulerState :=
  let s1 := if s.restart = true ∧ s.last_epoch = end_epochs s
            then { s with last_epoch := -1 } else s
  { s1 with last_epoch := s1.last_epoch + 1 }

/-- Concrete scheduler with the source's default hyperparameters
(`ranges=(0.9, 0.1)`, `warm_up=5`, `epochs=32`) and `restart=True`, observed at
the end of the decay span (`last_epoch = end_epochs = 37`). -/
def tfrEx : TFRSchedulerState :=
  { upper := 9/10, lower := 1/10, warm_up := 5, epochs := 32,
    restart := true, last_epoch := 37 }

/-! ### Speller decode loop (length freezing and early termination)

`Speller.forward` body, abstracting the network computation: all that the
length/termination logic consumes from step `t` is, per sample `b`, the
boolean `onehot2int(y_hat).eq(self.eos)` — modelled as the oracle
`e : Nat → Fin B → Bool`.  The loop state is the per-sample length vector
`y_hats_seq_lens` (initialised to `max_seq_lens`), the `num_eos = 3` ring
buffer `bi` (initialised to zeros), and the two per-step output lists
(`y_hats`, `attentions`, one entry appended per executed iteration; the
emitted tensors themselves are opaque, so each list records the step index of
the slot). -/

/-- Ring-buffer write of one step: `bi[t % self.num_eos] = eos-indicator`. -/
def bufUpdate {B : Nat} (e : Nat → Fin B → Bool) (t : Nat)
    (buf : Fin 3 → Fin B → Bool) : Fin 3 → Fin B → Bool :=
  Function.update buf ⟨t % 3, Nat.mod_lt t (by decide)⟩ (e t)

/-- `bi.prod(dim=0)` for sample `b`: all three buffer slots are set. -/
def allEos {B : Nat} (buf : Fin 3 → Fin B → Bool) (b : Fin B) : Bool :=
  decide (∀ i : Fin 3, buf i b = true)

/-- `y_hats_seq_lens[bi.prod(dim=0) * y_hats_seq_lens.gt(t)] = t + 1`:
freeze the length of every sample whose buffer is all-eos and whose recorded
length still exceeds `t`. -/
def lensUpdate {B : Nat} (t : Nat) (buf : Fin 3 → Fin B → Bool)
    (lens : Fin B → Nat) : Fin B → Nat :=
  fun b => if allEos buf b = true ∧ t < lens b then t + 1 else lens b

/-- Result of `Speller.forward`: length vector, per-step distribution slots
and per-step attention slots (`out_time = yhats.length`). -/
structure SpellOut (B : Nat) where
  lens : Fin B → Nat
  yhats : List Nat
  attns : List Nat

/-- The decode loop of `Speller.forward`: at step `t` (fuel counts the
remaining iterations of `range(max_seq_lens)`) append the step's output
slots, update the ring buffer, freeze lengths, and break early once
`y_hats_seq_lens.le(t + 1).all()`. -/
def spellLoop {B : Nat} (e : Nat → Fin B → Bool) :
    Nat → Nat → (Fin 3 → Fin B → Bool) → (Fin B → Nat) →
      List Nat → List Nat → SpellOut B
  | 0, _, _, lens, yhs, ats => ⟨lens, yhs, ats⟩
  | fuel + 1, t, buf, lens, yhs, ats =>
    let buf' := bufUpdate e t buf
    let lens' := lensUpdate t buf' lens
    if ∀ b, lens' b ≤ t + 1 then ⟨lens', yhs ++ [t], ats ++ [t]⟩
    else spellLoop e fuel (t + 1) buf' lens' (yhs ++ [t]) (ats ++ [t])

/-- `Speller.forward` entry point: length vector starts at `max_seq_lens`,
ring buffer at zeros, output lists empty, loop over `range(maxLen)`. -/
def spellerForward {B : Nat} (maxLen : Nat) (e : Nat → Fin B → Bool) : SpellOut B :=
  spellLoop e maxLen 0 (fun _ _ => false) (fun _ => maxLen) [] []

/-- Three consecutive end-of-sequence arg-maxes for sample `b` ending at step
`t` (only meaningful from `t = 2` on, matching the zero-initialised buffer). -/
def eosWindow {B : Nat} (e : Nat → Fin B → Bool) (t : Nat) (b : Fin B) : Bool :=
  decide (2 ≤ t) && e (t - 2) b && e (t - 1) b && e t b

/-- Contents of ring-buffer slot `i` at entry of step `t` when every step
`t' < t` has been written: the indicator of the most recent step with residue
`i` modulo 3, or `false` if slot `i` was never written. -/
def histVal {B : Nat} (e : Nat → Fin B → Bool) (t : Nat) (i : Fin 3) (b : Fin B) :
    Bool :=
  if i.val < t then e (t - 1 - ((t - 1 - i.val) % 3)) b else false

/-- The ring buffer faithfully records the step history up to `t`. -/
def bufInv {B : Nat} (e : Nat → Fin B → Bool) (t : Nat)
    (buf : Fin 3 → Fin B → Bool) : Prop :=
  ∀ (i : Fin 3) (b : Fin B), buf i b = histVal e t i b

/-! ### MaskedSoftmax (real-valued model)

`MaskedSoftmax.forward` with a mask receives `e : B x 1 x Th` and
`mask : B x Th` and computes
`shift_e = e - e.max(); exps = exp(shift_e) * mask;`
`sums = exps.sum(dim=-1, keepdim=True) + epsilon; return exps / sums`.
The singleton middle axis is dropped: scores are a `(rows, cols)` matrix, the
max is GLOBAL over the whole tensor, and the sum runs per row.  Tensors are
nonempty in both axes (sizes `nb + 1`, `nt + 1`), as `e.max()` requires. -/

/-- `self.epsilon = 1e-5`. -/
noncomputable def msEpsilon : ℝ := 1 / 100000

/-- `e.max()`: the global maximum of the score tensor. -/
noncomputable def scoresMax (nb nt : Nat) (e : Fin (nb + 1) → Fin (nt + 1) → ℝ) : ℝ :=
  Finset.univ.sup' Finset.univ_nonempty
    (fun p : Fin (nb + 1) × Fin (nt + 1) => e p.1 p.2)

/-- `MaskedSoftmax.forward` with a mask, at row `r`, column `i`. -/
noncomputable def maskedSoftmax (nb nt : Nat)
    (e mask : Fin (nb + 1) → Fin (nt + 1) → ℝ)
    (r : Fin (nb + 1)) (i : Fin (nt + 1)) : ℝ :=
  Real.exp (e r i - scoresMax nb nt e) * mask r i /
    ((∑ j, Real.exp (e r j - scoresMax nb nt e) * mask r j) + msEpsilon)

/-- Sum of the produced weights over the valid (`mask = 1`) positions of
row `r`. -/
noncomputable def maskedSoftmaxValidSum (nb nt : Nat)
    (e mask : Fin (nb + 1) → Fin (nt + 1) → ℝ) (r : Fin (nb + 1)) : ℝ :=
  ∑ i ∈ Finset.univ.filter (fun i => mask r i = 1), maskedSoftmax nb nt e mask r i

/-- Counterexample scores, one row `[0, 100]`. -/
noncomputable def ceScores : Fin 1 → Fin 2 → ℝ :=
  fun _ i => if i = 0 then 0 else 100

/-- Counterexample mask `[1, 0]`: the only valid position does not attain the
global maximum of the scores. -/
noncomputable def ceMask : Fin 1 → Fin 2 → ℝ :=
  fun _ i => if i = 0 then 1 else 0

/-! ### LogWithLabelSmoothing -/

/-- `LogWithLabelSmoothing.forward`:
`y = (1.0 - floor) * x + floor / x.size(-1); return y.log()`, elementwise
over a distribution `x` on `V` classes. -/
noncomputable def logWithLabelSmoothing (floor : ℝ) (V : Nat) (x : Fin V → ℝ)
    (i : Fin V) : ℝ :=
  Real.log ((1 - floor) * x i + floor / (V : ℝ))

end LasNetwork

namespace LasNetwork

/-! ## Theorems for claims C1, C2, C3, C5, C6 -/

/-- C1 (code bug evidence): for a sample whose decoder length froze at 10
(≠ 256), `_eval_forward` returns 10 unchanged — the in-place `sub_` acts on an
advanced-indexing copy — while the claimed behaviour would return
`10 - num_eos = 7`. -/
theorem C1_evalForward_no_subtraction :
    evalForwardLens 256 3 1 (fun _ => 10) ⟨0, by decide⟩ = 10
      ∧ evalForwardLensClaim 256 3 1 (fun _ => 10) ⟨0, by decide⟩ = 7 := by
  constructor
  · rfl
  · decide

/-- C2 (counterexample): in training mode, on a step where the
probability-`tfr` event `_is_sample_step()` fires, the decoder does NOT feed
the previous emitted distribution (it feeds the ground-truth label), contrary
to the claim's assignment of that probability. -/
theorem C2_counterexample :
    ¬ (chooseNextInput true true 0 5 = NextIn.fromPrev) := by
  decide

/-- C2 (amended): during training the decoder feeds the ground-truth label at
step `t` with probability equal to the teacher-forcing ratio (the
`sampleStep` event), substituting the end-of-sequence symbol once `t` reaches
the padded target extent; otherwise — and always during inference — it feeds
the previous emitted distribution. -/
theorem C2_amended (s : Bool) (t n : Nat) :
    chooseNextInput false s t n = NextIn.fromPrev
      ∧ chooseNextInput true false t n = NextIn.fromPrev
      ∧ (t < n → chooseNextInput true true t n = NextIn.fromTarget t)
      ∧ (n ≤ t → chooseNextInput true true t n = NextIn.fromEos) := by
  refine ⟨by simp [chooseNextInput], by simp [chooseNextInput], ?_, ?_⟩
  · intro h
    simp [chooseNextInput, h]
  · intro h
    simp [chooseNextInput, Nat.not_lt.mpr h]

/-- Witness for C2 (amended) at concrete inputs. -/
theorem C2_amended_witness :
    (2 < 5 ∧ chooseNextInput true true 2 5 = NextIn.fromTarget 2)
      ∧ (5 ≤ 7 ∧ chooseNextInput true true 7 5 = NextIn.fromEos) :=
  ⟨⟨by decide, (C2_amended true 2 5).2.2.1 (by decide)⟩,
   ⟨by decide, (C2_amended true 7 5).2.2.2 (by decide)⟩⟩

/-- C3 (counterexample): for input time length 50 the encoder's output time
extent (50: every conv/pool stage has stride 1 along time) differs from the
claim's thrice-applied halving formula (7). -/
theorem C3_counterexample :
    ¬ (listenerTime 50 = specClaimHalve (specClaimHalve (specClaimHalve 50))) := by
  decide

/-- C3 (amended): for every valid per-sample time length `L ≥ 1` the encoder's
output time extent equals `L` unchanged (and does not depend on the other
samples in the batch); the halving formula `floor((W-3+2)/2)+1` applies three
times to the FREQUENCY axis, taking 129 to 17. -/
theorem C3_amended (L : Nat) (pre post : List Nat) (hL : 1 ≤ L) :
    listenerTime L = L
      ∧ listenerTimeBatch (pre ++ L :: post)
          = listenerTimeBatch pre ++ listenerTime L :: listenerTimeBatch post
      ∧ listenerFreq 129 = 17 := by
  have hstage : ∀ M : Nat, 1 ≤ M → stageTime M = M := by
    intro M hM
    simp only [stageTime, convOut]
    omega
  have h1 : listenerTime L = L := by
    unfold listenerTime
    rw [hstage L hL, hstage L hL, hstage L hL]
  refine ⟨h1, ?_, by decide⟩
  simp [listenerTimeBatch]

/-- Witness for C3 (amended) at concrete inputs. -/
theorem C3_amended_witness :
    1 ≤ 50 ∧ (listenerTime 50 = 50
      ∧ listenerTimeBatch ([3, 4] ++ 50 :: [5])
          = listenerTimeBatch [3, 4] ++ listenerTime 50 :: listenerTimeBatch [5]
      ∧ listenerFreq 129 = 17) :=
  ⟨by decide, C3_amended 50 [3, 4] [5] (by decide)⟩

/-- C5 (counterexample): with the source's default hyperparameters and
`restart=True`, stepping at the end of the decay span resets the epoch counter
to 0 — not to the warm-up boundary 5 — and the following epoch still returns
the upper ratio, so the warm-up plateau is repeated rather than skipped. -/
theorem C5_counterexample :
    (schedStep tfrEx).last_epoch ≠ tfrEx.warm_up
      ∧ (schedStep tfrEx).last_epoch = 0
      ∧ get_tfr (schedStep (schedStep tfrEx)) = tfrEx.upper := by
  refine ⟨by decide, by decide, ?_⟩
  norm_num [schedStep, tfrEx, end_epochs, get_tfr]

/-- C5 (amended): the scheduler returns the upper ratio before the warm-up
span ends, then decays affinely (`upper + slope * (epoch - warm_up)`) until
the end of the decay span, then returns the lower ratio; when restart is
enabled and the counter reaches the end of the decay span, `step()` resets the
counter to `-1` and immediately increments it, landing on epoch 0, so the
warm-up plateau is traversed again before decay resumes. -/
theorem C5_amended (s : TFRSchedulerState) (hep : 0 ≤ s.epochs) :
    (s.last_epoch < s.warm_up → get_tfr s = s.upper)
      ∧ (s.warm_up ≤ s.last_epoch → s.last_epoch < end_epochs s →
          get_tfr s = s.upper + slope s * ((s.last_epoch - s.warm_up : ℤ) : ℚ))
      ∧ (end_epochs s ≤ s.last_epoch → get_tfr s = s.lower)
      ∧ (s.restart = true → s.last_epoch = end_epochs s →
          (schedStep s).last_epoch = 0) := by
  refine ⟨?_, ?_, ?_, ?_⟩
  · intro h
    simp [get_tfr, h]
  · intro h1 h2
    rw [get_tfr, if_neg (by omega), if_pos h2]
  · intro h
    simp only [end_epochs] at h
    rw [get_tfr, if_neg (by omega), if_neg (by simp only [end_epochs]; omega)]
  · intro hr he
    simp [schedStep, hr, he]

/-- Witness for C5 (amended) at concrete scheduler states. -/
theorem C5_amended_witness :
    ((2 : ℤ) < 5 ∧ get_tfr { tfrEx with last_epoch := 2 } = tfrEx.upper)
      ∧ ((5 : ℤ) ≤ 10 ∧ (10 : ℤ) < 37
          ∧ get_tfr { tfrEx with last_epoch := 10 }
              = tfrEx.upper + slope tfrEx * ((10 - 5 : ℤ) : ℚ))
      ∧ ((37 : ℤ) ≤ 40 ∧ get_tfr { tfrEx with last_epoch := 40 } = tfrEx.lower)
      ∧ (tfrEx.restart = true ∧ (schedStep tfrEx).last_epoch = 0) := by
  refine ⟨⟨by decide,
            (C5_amended { tfrEx with last_epoch := 2 } (by decide)).1 (by decide)⟩,
          ⟨by decide, by decide,
            (C5_amended { tfrEx with last_epoch := 10 } (by decide)).2.1
              (by decide) (by decide)⟩,
          ⟨by decide,
            (C5_amended { tfrEx with last_epoch := 40 } (by decide)).2.2.1
              (by decide)⟩,
          ⟨rfl, (C5_amended tfrEx (by decide)).2.2.2 rfl (by decide)⟩⟩

/-- C6 (counterexample): a sample with feature length 300 and label length 256
under decode cap 256 is dropped by the code (`y_seq_lens.lt(max_seq_lens)` is
strict), although the claim's retention predicate (label length does not
exceed the cap) would keep it. -/
theorem C6_counterexample :
    ¬ (retainSample 256 300 256 = true ↔ (256 < 300 ∧ 256 ≤ 256)) := by
  decide

/-- C6 (amended): a training sample is retained iff its feature length is
strictly greater than its label length and its label length is STRICTLY LESS
than the maximum decode length; the warning fires iff no sample is retained;
and for the scenario batch `[(50, 5), (30, 40)]` under cap 256 exactly the
second sample is dropped before encoding. -/
theorem C6_amended (maxSeqLens xLen yLen : Nat) (samples : List (Nat × Nat)) :
    (retainSample maxSeqLens xLen yLen = true ↔ (yLen < xLen ∧ yLen < maxSeqLens))
      ∧ (trainWarn maxSeqLens samples = true ↔ trainFilter maxSeqLens samples = [])
      ∧ trainFilter 256 [(50, 5), (30, 40)] = [(50, 5)] := by
  refine ⟨by simp [retainSample], ?_, by decide⟩
  constructor
  · intro h
    simp only [trainWarn, Bool.not_eq_true', List.any_eq_false] at h
    simp only [trainFilter, List.filter_eq_nil_iff]
    intro a ha
    simpa using h a ha
  · intro h
    simp only [trainFilter, List.filter_eq_nil_iff] at h
    simp only [trainWarn, Bool.not_eq_true', List.any_eq_false]
    intro a ha
    simpa using h a ha

/-- Witness for C6 (amended) at the scenario input. -/
theorem C6_amended_witness :
    (retainSample 256 50 5 = true ↔ (5 < 50 ∧ 5 < 256))
      ∧ (trainWarn 256 [(50, 5), (30, 40)] = true
          ↔ trainFilter 256 [(50, 5), (30, 40)] = [])
      ∧ trainFilter 256 [(50, 5), (30, 40)] = [(50, 5)] :=
  C6_amended 256 50 5 [(50, 5), (30, 40)]

/-! ## Decode-loop lemmas (for C7, C8, C10) -/

/-- The zero-initialised ring buffer satisfies the history invariant at `t = 0`. -/
theorem bufInv_init {B : Nat} (e : Nat → Fin B → Bool) :
    bufInv e 0 (fun _ _ => false) := by
  intro i b
  simp [histVal]

/-- One ring-buffer write preserves the history invariant. -/
theorem bufInv_update {B : Nat} {e : Nat → Fin B → Bool} {t : Nat}
    {buf : Fin 3 → Fin B → Bool} (h : bufInv e t buf) :
    bufInv e (t + 1) (bufUpdate e t buf) := by
  intro i b
  rcases eq_or_ne i ⟨t % 3, Nat.mod_lt t (by decide)⟩ with hi | hi
  · subst hi
    rw [bufUpdate, Function.update_same]
    simp only [histVal]
    rw [if_pos (by omega)]
    congr 1
    omega
  · have hival : i.val ≠ t % 3 := fun hc => hi (Fin.ext hc)
    have h3 : i.val < 3 := i.isLt
    rw [bufUpdate, Function.update_noteq hi, h i b]
    simp only [histVal]
    by_cases hlt : i.val < t
    · rw [if_pos hlt, if_pos (by omega)]
      congr 1
      omega
    · rw [if_neg hlt, if_neg (by omega)]

/-- After the write at step `t`, the `bi.prod` test for sample `b` is exactly
"three consecutive end-of-sequence arg-maxes ending at step `t`". -/
theorem allEos_eq_eosWindow {B : Nat} {e : Nat → Fin B → Bool} {t : Nat}
    {buf : Fin 3 → Fin B → Bool} (h : bufInv e (t + 1) buf) (b : Fin B) :
    allEos buf b = eosWindow e t b := by
  rw [Bool.eq_iff_iff]
  simp only [allEos, eosWindow, decide_eq_true_eq, Bool.and_eq_true]
  constructor
  · intro hall
    have h2 : 2 ≤ t := by
      by_contra hc
      push_neg at hc
      interval_cases t
      · have h1 := hall ⟨1, by omega⟩
        rw [h ⟨1, by omega⟩ b] at h1
        simp [histVal] at h1
      · have h1 := hall ⟨2, by omega⟩
        rw [h ⟨2, by omega⟩ b] at h1
        simp [histVal] at h1
    refine ⟨⟨⟨h2, ?_⟩, ?_⟩, ?_⟩
    · have h1 := hall ⟨(t + 1) % 3, Nat.mod_lt _ (by decide)⟩
      rw [h _ b] at h1
      simp only [histVal] at h1
      rw [if_pos (by omega)] at h1
      rw [show t + 1 - 1 - ((t + 1 - 1 - (t + 1) % 3) % 3) = t - 2 from by omega] at h1
      exact h1
    · have h1 := hall ⟨(t + 2) % 3, Nat.mod_lt _ (by decide)⟩
      rw [h _ b] at h1
      simp only [histVal] at h1
      rw [if_pos (by omega)] at h1
      rw [show t + 1 - 1 - ((t + 1 - 1 - (t + 2) % 3) % 3) = t - 1 from by omega] at h1
      exact h1
    · have h1 := hall ⟨t % 3, Nat.mod_lt _ (by decide)⟩
      rw [h _ b] at h1
      simp only [histVal] at h1
      rw [if_pos (by omega)] at h1
      rw [show t + 1 - 1 - ((t + 1 - 1 - t % 3) % 3) = t from by omega] at h1
      exact h1
  · rintro ⟨⟨⟨h2, he2⟩, he1⟩, he0⟩ i
    have h3 : i.val < 3 := i.isLt
    rw [h i b]
    simp only [histVal]
    rw [if_pos (by omega)]
    have hr : (t - i.val) % 3 = 0 ∨ (t - i.val) % 3 = 1 ∨ (t - i.val) % 3 = 2 := by
      omega
    rcases hr with hr | hr | hr
    · rw [show t + 1 - 1 - ((t + 1 - 1 - i.val) % 3) = t from by omega]
      exact he0
    · rw [show t + 1 - 1 - ((t + 1 - 1 - i.val) % 3) = t - 1 from by omega]
      exact he1
    · rw [show t + 1 - 1 - ((t + 1 - 1 - i.val) % 3) = t - 2 from by omega]
      exact he2

/-- Once a sample's recorded length is at most the current step index, no
later loop iteration changes it (the `y_hats_seq_lens.gt(t)` guard). -/
theorem spellLoop_persist {B : Nat} (e : Nat → Fin B → Bool) :
    ∀ (fuel t : Nat) (buf : Fin 3 → Fin B → Bool) (lens : Fin B → Nat)
      (yhs ats : List Nat) (b : Fin B), lens b ≤ t →
      (spellLoop e fuel t buf lens yhs ats).lens b = lens b := by
  intro fuel
  induction fuel with
  | zero =>
    intro t buf lens yhs ats b _
    rfl
  | succ n ih =>
    intro t buf lens yhs ats b hb
    have hl : lensUpdate t (bufUpdate e t buf) lens b = lens b := by
      simp only [lensUpdate]
      rw [if_neg]
      rintro ⟨-, hc⟩
      omega
    simp only [spellLoop]
    split
    · exact hl
    · rw [ih (t + 1) _ _ _ _ b (le_of_eq_of_le hl (by omega)), hl]

/-- If the first three-in-a-row end-of-sequence window of sample `b` ends at
step `tstar` (still within the loop bound and below `b`'s recorded length),
the loop freezes `b`'s length to `tstar + 1`. -/
theorem spellLoop_freeze {B : Nat} (e : Nat → Fin B → Bool) (tstar : Nat)
    (b : Fin B) (hwin : eosWindow e tstar b = true) :
    ∀ (fuel t : Nat) (buf : Fin 3 → Fin B → Bool) (lens : Fin B → Nat)
      (yhs ats : List Nat),
      bufInv e t buf → t ≤ tstar → tstar < t + fuel → tstar < lens b →
      (∀ u, t ≤ u → u < tstar → eosWindow e u b = false) →
      (spellLoop e fuel t buf lens yhs ats).lens b = tstar + 1 := by
  intro fuel
  induction fuel with
  | zero =>
    intro t buf lens yhs ats _ h1 h2 _ _
    omega
  | succ n ih =>
    intro t buf lens yhs ats hinv h1 h2 h3 h4
    have hinv' : bufInv e (t + 1) (bufUpdate e t buf) := bufInv_update hinv
    rcases eq_or_lt_of_le h1 with heq | hlt
    · subst heq
      have hall : allEos (bufUpdate e t buf) b = true := by
        rw [allEos_eq_eosWindow hinv' b]
        exact hwin
      have hlb : lensUpdate t (bufUpdate e t buf) lens b = t + 1 := by
        simp only [lensUpdate]
        rw [if_pos ⟨hall, h3⟩]
      simp only [spellLoop]
      split
      · exact hlb
      · rw [spellLoop_persist e n (t + 1) _ _ _ _ b (by rw [hlb]), hlb]
    · have hwinf : eosWindow e t b = false := h4 t le_rfl hlt
      have hall : allEos (bufUpdate e t buf) b = false := by
        rw [allEos_eq_eosWindow hinv' b]
        exact hwinf
      have hlb : lensUpdate t (bufUpdate e t buf) lens b = lens b := by
        simp only [lensUpdate]
        rw [if_neg]
        rintro ⟨hc, -⟩
        rw [hall] at hc
        cases hc
      have hnc : ¬ ∀ b' : Fin B, lensUpdate t (bufUpdate e t buf) lens b' ≤ t + 1 := by
        intro hforall
        have hcb := hforall b
        rw [hlb] at hcb
        omega
      simp only [spellLoop]
      rw [if_neg hnc]
      exact ih (t + 1) _ _ _ _ hinv' hlt (by omega) (by rw [hlb]; exact h3)
        (fun u hu1 hu2 => h4 u (by omega) hu2)

/-- The loop never executes more steps than the maximum recorded length: the
break fires as soon as every sample's length is at most `t + 1`. -/
theorem spellLoop_len_le_sup {B : Nat} (e : Nat → Fin B → Bool) :
    ∀ (fuel t : Nat) (buf : Fin 3 → Fin B → Bool) (lens : Fin B → Nat)
      (yhs ats : List Nat),
      (∃ b : Fin B, t < lens b) → yhs.length = t →
      (spellLoop e fuel t buf lens yhs ats).yhats.length ≤
        Finset.univ.sup (spellLoop e fuel t buf lens yhs ats).lens := by
  intro fuel
  induction fuel with
  | zero =>
    intro t buf lens yhs ats hex hlen
    obtain ⟨b, hb⟩ := hex
    simp only [spellLoop]
    exact le_trans (by omega) (Finset.le_sup (Finset.mem_univ b))
  | succ n ih =>
    intro t buf lens yhs ats hex hlen
    simp only [spellLoop]
    split
    · next hbrk =>
        obtain ⟨b, hb⟩ := hex
        have hge : t + 1 ≤ lensUpdate t (bufUpdate e t buf) lens b := by
          simp only [lensUpdate]
          split
          · exact le_rfl
          · omega
        simp only [List.length_append, List.length_cons, List.length_nil, hlen]
        exact le_trans (by omega) (Finset.le_sup (Finset.mem_univ b))
    · next hbrk =>
        apply ih
        · rcases not_forall.mp hbrk with ⟨b, hb⟩
          exact ⟨b, by omega⟩
        · simp [hlen]

/-- Structural bounds maintained by the loop: lengths stay in
`[1, t + fuel]`, never exceed the number of emitted slots, and the two output
lists grow in lock-step. -/
theorem spellLoop_bounds {B : Nat} (e : Nat → Fin B → Bool) :
    ∀ (fuel t : Nat) (buf : Fin 3 → Fin B → Bool) (lens : Fin B → Nat)
      (yhs ats : List Nat) (b : Fin B),
      1 ≤ lens b → (∀ b', lens b' ≤ t + fuel) →
      yhs.length = t → ats.length = t →
      1 ≤ (spellLoop e fuel t buf lens yhs ats).lens b
        ∧ (spellLoop e fuel t buf lens yhs ats).lens b ≤ t + fuel
        ∧ (spellLoop e fuel t buf lens yhs ats).lens b
            ≤ (spellLoop e fuel t buf lens yhs ats).yhats.length
        ∧ (spellLoop e fuel t buf lens yhs ats).yhats.length
            = (spellLoop e fuel t buf lens yhs ats).attns.length := by
  intro fuel
  induction fuel with
  | zero =>
    intro t buf lens yhs ats b h1 h2 hyl hal
    have hb := h2 b
    simp only [spellLoop]
    exact ⟨h1, hb, by omega, by omega⟩
  | succ n ih =>
    intro t buf lens yhs ats b h1 h2 hyl hal
    simp only [spellLoop]
    split
    · next hbrk =>
        refine ⟨?_, ?_, ?_, ?_⟩
        · simp only [lensUpdate]
          split
          · omega
          · exact h1
        · have hb := h2 b
          simp only [lensUpdate]
          split
          · omega
          · omega
        · have hlb := hbrk b
          simp only [List.length_append, List.length_cons, List.length_nil, hyl]
          omega
        · simp [hyl, hal]
    · next hbrk =>
        have H := ih (t + 1) (bufUpdate e t buf) (lensUpdate t (bufUpdate e t buf) lens)
          (yhs ++ [t]) (ats ++ [t]) b ?h1 ?h2 ?h3 ?h4
        case h1 =>
          simp only [lensUpdate]
          split
          · omega
          · exact h1
        case h2 =>
          intro b'
          have hb' := h2 b'
          simp only [lensUpdate]
          split
          · omega
          · omega
        case h3 => simp [hyl]
        case h4 => simp [hal]
        obtain ⟨a1, a2, a3, a4⟩ := H
        exact ⟨a1, by omega, a3, a4⟩

/-- C7: if sample `b`'s arg-max emissions first contain three consecutive
end-of-sequence symbols ending at step `tstar` (with `tstar` below the decode
cap), the decoder freezes `b`'s returned length to `tstar + 1`; and the loop
never emits more steps than the maximum of the returned lengths. -/
theorem C7_freeze_and_stop {B : Nat} (maxLen : Nat) (e : Nat → Fin B → Bool)
    (b : Fin B) (tstar : Nat)
    (hwin : eosWindow e tstar b = true)
    (hfirst : ∀ u, u < tstar → eosWindow e u b = false)
    (hmax : tstar < maxLen) :
    (spellerForward maxLen e).lens b = tstar + 1
      ∧ (spellerForward maxLen e).yhats.length
          ≤ Finset.univ.sup (spellerForward maxLen e).lens := by
  unfold spellerForward
  constructor
  · exact spellLoop_freeze e tstar b hwin maxLen 0 _ _ _ _
      (bufInv_init e) (by omega) (by omega) (by omega)
      (fun u _ hu => hfirst u hu)
  · exact spellLoop_len_le_sup e maxLen 0 _ _ _ _ ⟨b, by omega⟩ rfl

/-- Witness for C7 at a concrete input: every step emits end-of-sequence, so
the first window ends at step 2 and the frozen length is 3. -/
theorem C7_freeze_and_stop_witness :
    (eosWindow (fun _ (_ : Fin 1) => true) 2 0 = true ∧ 2 < 256)
      ∧ ((spellerForward 256 (fun _ (_ : Fin 1) => true)).lens 0 = 2 + 1
        ∧ (spellerForward 256 (fun _ (_ : Fin 1) => true)).yhats.length
            ≤ Finset.univ.sup (spellerForward 256 (fun _ (_ : Fin 1) => true)).lens) :=
  ⟨⟨by decide, by decide⟩,
   C7_freeze_and_stop 256 (fun _ (_ : Fin 1) => true) 0 2 (by decide)
     (fun u hu => by interval_cases u <;> decide) (by decide)⟩

/-- C8: once a sample's length is frozen (already at most the current step
index), a later three-in-a-row end-of-sequence occurrence leaves it
unchanged: the rest of the loop returns it as is. -/
theorem C8_frozen_never_overwritten {B : Nat} (e : Nat → Fin B → Bool)
    (fuel t tLater : Nat) (buf : Fin 3 → Fin B → Bool) (lens : Fin B → Nat)
    (yhs ats : List Nat) (b : Fin B)
    (hfrozen : lens b ≤ t) (hlater : t ≤ tLater)
    (hwin : eosWindow e tLater b = true) :
    (spellLoop e fuel t buf lens yhs ats).lens b = lens b :=
  spellLoop_persist e fuel t buf lens yhs ats b hfrozen

/-- Witness for C8 at a concrete input. -/
theorem C8_frozen_never_overwritten_witness :
    (2 ≤ 2 ∧ 2 ≤ 3 ∧ eosWindow (fun _ (_ : Fin 1) => true) 3 0 = true)
      ∧ (spellLoop (fun _ (_ : Fin 1) => true) 5 2 (fun _ _ => false)
          (fun _ => 2) [] []).lens 0 = 2 :=
  ⟨⟨by decide, by decide, by decide⟩,
   C8_frozen_never_overwritten (fun _ (_ : Fin 1) => true) 5 2 3
     (fun _ _ => false) (fun _ => 2) [] [] 0 (by decide) (by decide) (by decide)⟩

/-- C10: every returned length lies in `[1, maxLen]` and never exceeds the
`out_time` extent of the distribution tensor, and the distribution and
attention traces have the same `out_time` extent. -/
theorem C10_output_invariants {B : Nat} (maxLen : Nat) (e : Nat → Fin B → Bool)
    (b : Fin B) (hmax : 1 ≤ maxLen) :
    1 ≤ (spellerForward maxLen e).lens b
      ∧ (spellerForward maxLen e).lens b ≤ maxLen
      ∧ (spellerForward maxLen e).lens b ≤ (spellerForward maxLen e).yhats.length
      ∧ (spellerForward maxLen e).yhats.length
          = (spellerForward maxLen e).attns.length := by
  unfold spellerForward
  have H := spellLoop_bounds e maxLen 0 (fun _ _ => false) (fun _ => maxLen)
    [] [] b hmax (fun b' => by simp) rfl rfl
  obtain ⟨a1, a2, a3, a4⟩ := H
  exact ⟨a1, by omega, a3, a4⟩

/-- Witness for C10 at a concrete input. -/
theorem C10_output_invariants_witness :
    1 ≤ 256
      ∧ (1 ≤ (spellerForward 256 (fun _ (_ : Fin 1) => false)).lens 0
        ∧ (spellerForward 256 (fun _ (_ : Fin 1) => false)).lens 0 ≤ 256
        ∧ (spellerForward 256 (fun _ (_ : Fin 1) => false)).lens 0
            ≤ (spellerForward 256 (fun _ (_ : Fin 1) => false)).yhats.length
        ∧ (spellerForward 256 (fun _ (_ : Fin 1) => false)).yhats.length
            = (spellerForward 256 (fun _ (_ : Fin 1) => false)).attns.length) :=
  ⟨by decide, C10_output_invariants 256 (fun _ (_ : Fin 1) => false) 0 (by decide)⟩

/-! ## MaskedSoftmax theorems (C4) -/

/-- Sum bound for the masked normalisation: `|S/(S+eps) - 1| ≤ eps` whenever
`1 ≤ S` and `0 < eps`. -/
theorem ratio_abs_bound (S eps : ℝ) (hS : 1 ≤ S) (heps : 0 < eps) :
    |S / (S + eps) - 1| ≤ eps := by
  have hpos : 0 < S + eps := by linarith
  have hle : S / (S + eps) ≤ 1 := by
    rw [div_le_one hpos]
    linarith
  rw [abs_of_nonpos (by linarith), neg_sub]
  have heq : 1 - S / (S + eps) = eps / (S + eps) := by
    field_simp
  rw [heq]
  exact div_le_self heps.le (by linarith)

/-- The global maximum of the counterexample scores is 100, attained only at
the masked position. -/
theorem ceScoresMax : scoresMax 0 1 ceScores = 100 := by
  simp only [scoresMax]
  apply le_antisymm
  · apply Finset.sup'_le
    rintro ⟨r, i⟩ -
    fin_cases i <;> norm_num [ceScores]
  · calc (100 : ℝ) = ceScores 0 1 := by norm_num [ceScores]
      _ ≤ _ := Finset.le_sup' (fun p : Fin 1 × Fin 2 => ceScores p.1 p.2)
          (Finset.mem_univ ((0 : Fin 1), (1 : Fin 2)))

/-- C4 (counterexample): for scores `[0, 100]` with mask `[1, 0]` (one valid
entry), the weights over the valid positions do NOT sum to 1 within epsilon:
the global max sits on the masked position, so every valid exponential is
tiny against the epsilon in the denominator. -/
theorem C4_counterexample :
    ¬ (|maskedSoftmaxValidSum 0 1 ceScores ceMask 0 - 1| ≤ msEpsilon) := by
  have hfilter : Finset.univ.filter (fun i : Fin 2 => ceMask 0 i = 1) = {0} := by
    ext i
    fin_cases i <;> simp [ceMask]
  have hsum : maskedSoftmaxValidSum 0 1 ceScores ceMask 0
      = Real.exp (-100) / (Real.exp (-100) + msEpsilon) := by
    simp only [maskedSoftmaxValidSum, hfilter, Finset.sum_singleton, maskedSoftmax,
      ceScoresMax, Fin.sum_univ_two]
    norm_num [ceScores, ceMask]
  have h101 : (101 : ℝ) ≤ Real.exp 100 := by
    have h := Real.add_one_le_exp (100 : ℝ)
    linarith
  have hS : Real.exp (-100) ≤ 1 / 101 := by
    rw [Real.exp_neg, one_div]
    exact inv_anti₀ (by norm_num) h101
  have hSpos : 0 < Real.exp (-100) := Real.exp_pos _
  have hεpos : (0 : ℝ) < msEpsilon := by norm_num [msEpsilon]
  have hX : Real.exp (-100) / (Real.exp (-100) + msEpsilon) < 1 - msEpsilon := by
    rw [div_lt_iff₀ (by linarith)]
    rw [show msEpsilon = 1 / 100000 from rfl]
    nlinarith [hS, hSpos]
  intro habs
  rw [hsum] at habs
  have hle : Real.exp (-100) / (Real.exp (-100) + msEpsilon) ≤ 1 := by
    rw [div_le_one (by linarith)]
    linarith
  rw [abs_of_nonpos (by linarith), neg_sub] at habs
  linarith

/-- C4 (amended): for every score tensor and every 0/1 mask whose row `r` has
a valid position attaining the GLOBAL maximum of the scores, the produced
weights of row `r` are exactly 0 at masked positions and sum to 1 within
`epsilon = 1e-5` over the valid positions. -/
theorem C4_amended (nb nt : Nat) (e mask : Fin (nb + 1) → Fin (nt + 1) → ℝ)
    (r : Fin (nb + 1)) (i : Fin (nt + 1))
    (hmask : ∀ r' i', mask r' i' = 0 ∨ mask r' i' = 1)
    (hattain : ∃ i0, mask r i0 = 1 ∧ e r i0 = scoresMax nb nt e) :
    (mask r i = 0 → maskedSoftmax nb nt e mask r i = 0)
      ∧ |maskedSoftmaxValidSum nb nt e mask r - 1| ≤ msEpsilon := by
  have hterm_nonneg : ∀ j, 0 ≤ Real.exp (e r j - scoresMax nb nt e) * mask r j := by
    intro j
    rcases hmask r j with h | h
    · rw [h, mul_zero]
    · rw [h, mul_one]
      exact (Real.exp_pos _).le
  have hS1 : (1 : ℝ) ≤ ∑ j, Real.exp (e r j - scoresMax nb nt e) * mask r j := by
    obtain ⟨i0, hm0, he0⟩ := hattain
    have h0 : Real.exp (e r i0 - scoresMax nb nt e) * mask r i0 = 1 := by
      rw [hm0, mul_one, he0, sub_self, Real.exp_zero]
    calc (1 : ℝ) = Real.exp (e r i0 - scoresMax nb nt e) * mask r i0 := h0.symm
      _ ≤ _ := Finset.single_le_sum (fun j _ => hterm_nonneg j) (Finset.mem_univ i0)
  constructor
  · intro hm
    simp only [maskedSoftmax, hm, mul_zero, zero_div]
  · have hnum : ∑ x ∈ Finset.univ.filter (fun x => mask r x = 1),
        Real.exp (e r x - scoresMax nb nt e) * mask r x
        = ∑ j, Real.exp (e r j - scoresMax nb nt e) * mask r j := by
      apply Finset.sum_filter_of_ne
      intro x _ hx
      rcases hmask r x with h | h
      · rw [h, mul_zero] at hx
        exact absurd rfl hx
      · exact h
    have hsum : maskedSoftmaxValidSum nb nt e mask r
        = (∑ j, Real.exp (e r j - scoresMax nb nt e) * mask r j) /
          ((∑ j, Real.exp (e r j - scoresMax nb nt e) * mask r j) + msEpsilon) := by
      simp only [maskedSoftmaxValidSum, maskedSoftmax]
      rw [← Finset.sum_div, hnum]
    rw [hsum]
    exact ratio_abs_bound _ _ hS1 (by norm_num [msEpsilon])

/-- Witness for C4 (amended) at a concrete input: constant scores, mask
`[1, 0]`. -/
theorem C4_amended_witness :
    (ceMask 0 1 = 0 ∧ ceMask 0 0 = 1)
      ∧ maskedSoftmax 0 1 (fun _ _ => 0) ceMask 0 1 = 0
      ∧ |maskedSoftmaxValidSum 0 1 (fun _ _ => 0) ceMask 0 - 1| ≤ msEpsilon := by
  have hconst : scoresMax 0 1 (fun _ _ => (0 : ℝ)) = 0 := by
    simp [scoresMax, Finset.sup'_const]
  have H := C4_amended 0 1 (fun _ _ => 0) ceMask 0 1
    (fun r' i' => by fin_cases i' <;> simp [ceMask])
    ⟨0, by simp [ceMask], by rw [hconst]⟩
  exact ⟨⟨by simp [ceMask], by simp [ceMask]⟩, H.1 (by simp [ceMask]), H.2⟩

/-! ## LogWithLabelSmoothing theorem (C9) -/

/-- C9: for every `V ≥ 1` and smoothing floor in `[0, 1)`, exponentiating the
label-smoothed log-probabilities of the uniform distribution over `V` classes
yields values summing to 1. -/
theorem C9_smoothing_roundtrip (V : Nat) (floor : ℝ) (hV : 1 ≤ V)
    (h0 : 0 ≤ floor) (h1 : floor < 1) :
    ∑ i : Fin V, Real.exp (logWithLabelSmoothing floor V (fun _ => 1 / (V : ℝ)) i)
      = 1 := by
  have hVR : (0 : ℝ) < (V : ℝ) := by
    exact_mod_cast Nat.lt_of_lt_of_le Nat.zero_lt_one hV
  have hVne : (V : ℝ) ≠ 0 := ne_of_gt hVR
  have hterm : ∀ i : Fin V,
      Real.exp (logWithLabelSmoothing floor V (fun _ => 1 / (V : ℝ)) i)
        = 1 / (V : ℝ) := by
    intro i
    simp only [logWithLabelSmoothing]
    rw [show (1 - floor) * (1 / (V : ℝ)) + floor / (V : ℝ) = 1 / (V : ℝ) from by
      field_simp]
    exact Real.exp_log (by positivity)
  calc ∑ i : Fin V, Real.exp (logWithLabelSmoothing floor V (fun _ => 1 / (V : ℝ)) i)
      = ∑ _i : Fin V, 1 / (V : ℝ) := Finset.sum_congr rfl (fun i _ => hterm i)
    _ = (V : ℝ) * (1 / (V : ℝ)) := by
        rw [Finset.sum_const, Finset.card_univ, Fintype.card_fin, nsmul_eq_mul]
    _ = 1 := by field_simp

/-- Witness for C9 at `V = 2`, `floor = 1/2`. -/
theorem C9_smoothing_roundtrip_witness :
    (1 ≤ 2 ∧ (0 : ℝ) ≤ 1 / 2 ∧ (1 / 2 : ℝ) < 1)
      ∧ ∑ i : Fin 2,
          Real.exp (logWithLabelSmoothing (1 / 2) 2 (fun _ => 1 / ((2 : Nat) : ℝ)) i)
        = 1 :=
  ⟨⟨by norm_num, by norm_num, by norm_num⟩,
   C9_smoothing_roundtrip 2 (1 / 2) (by norm_num) (by norm_num) (by norm_num)⟩

end LasNetwork
